import Mathlib

/-!
Verification development for the LiteRT-LM core runtime.

This file shallowly embeds the components of the repository that the
checked properties speak about:

* the NPU compiled-model executor (Prefill / PrefillInternal / Decode in
  src/runtime/engine/io_types.h, second document section),
* the model-asset-bundle resources (src/runtime/util/model_asset_bundle_resources.cc),
* the HuggingFace tokenizer decode path (src/runtime/components/huggingface_tokenizer.cc
  and src/runtime/components/tokenizer.h),
* the benchmark recorder and the response container (src/runtime/engine/io_types.cc).

Machine integers are modelled as Int (no arithmetic in the embedded code can
overflow at the inputs the theorems use), byte strings as List Nat, and the
result type absl::Status or absl::StatusOr as Except over an error-kind
inductive.  Wall-clock reads (absl::Now) are passed in as explicit arguments.
-/

namespace LiteRTLM

/-- Error kinds of the absl status codes that the embedded code produces.
`notFound` carries the message because one claim is about the message text. -/
inductive ErrKind where
  | invalidArgument : ErrKind
  | notFound : String → ErrKind
  | internal : ErrKind
  | dataLoss : ErrKind
deriving DecidableEq, Repr

instance {ε α : Type} [DecidableEq ε] [DecidableEq α] : DecidableEq (Except ε α) :=
  fun x y =>
    match x, y with
    | .ok a, .ok b =>
        if h : a = b then .isTrue (by rw [h])
        else .isFalse (by intro hh; cases hh; exact h rfl)
    | .ok _, .error _ => .isFalse (by intro hh; cases hh)
    | .error _, .ok _ => .isFalse (by intro hh; cases hh)
    | .error e, .error f =>
        if h : e = f then .isTrue (by rw [h])
        else .isFalse (by intro hh; cases hh; exact h rfl)

/-! ## Model-asset bundle (src/runtime/util/model_asset_bundle_resources.cc)

The bundle owns a map from file names to byte spans (`files_`, an
absl::flat_hash_map).  We model the map as an association list with the
span contents abstracted to a type parameter. -/

/-- The `files_` member of ModelAssetBundleResources: name to byte-span map. -/
structure ModelAssetBundle (α : Type) where
  files : List (String × α)
deriving Repr

/-- Model of absl::StrJoin(files, ", "): the file names joined by a comma
and a space.  absl::StrJoin is an external library routine; its documented
behaviour is plain interleaving of the separator. -/
def strJoin : List String → String
  | [] => ""
  | [x] => x
  | x :: xs => x ++ ", " ++ strJoin xs

/-- ModelAssetBundleResources::ListFiles: collects the keys of `files_`. -/
def listFiles {α : Type} (b : ModelAssetBundle α) : List String :=
  b.files.map Prod.fst

/-- The NotFound message built by ModelAssetBundleResources::GetFile via
absl::StrFormat("No file with name: %s. All files in the model asset bundle
are: %s.", filename, all_files). -/
def getFileNotFoundMsg {α : Type} (b : ModelAssetBundle α) (filename : String) : String :=
  "No file with name: " ++ filename ++
    ". All files in the model asset bundle are: " ++ strJoin (listFiles b) ++ "."

/-- ModelAssetBundleResources::GetFile: looks `filename` up in `files_`;
on a miss returns NotFound with a message listing all files. -/
def getFile {α : Type} (b : ModelAssetBundle α) (filename : String) : Except ErrKind α :=
  match b.files.lookup filename with
  | some span => .ok span
  | none => .error (.notFound (getFileNotFoundMsg b filename))

/-! ## Tokenizer decode path (src/runtime/components/huggingface_tokenizer.cc)

The underlying byte-pair decoder is the external Rust tokenizers library, so
it enters the model as an uninterpreted function from token ids to a byte
string; decoded strings are byte lists (std::string is a byte container). -/

/-- kReplacementCharacter: the UTF-8 bytes EF BF BD of U+FFFD. -/
def kReplacementCharacter : List Nat := [0xEF, 0xBF, 0xBD]

/-- has_bpe_suffix: whether the decoded byte string ends with the
replacement character (decoded.ends_with(kReplacementCharacter)). -/
def hasBpeSuffix (decoded : List Nat) : Bool :=
  kReplacementCharacter.isSuffixOf decoded

/-- HuggingFaceTokenizer::TokenIdsToText: decode with the external
tokenizer, then fail with DataLoss when the result ends with the
replacement character.  `decode` stands for tokenizer_->Decode. -/
def tokenIdsToText (decode : List Int → List Nat) (tokenIds : List Int) :
    Except ErrKind (List Nat) :=
  let decoded := decode tokenIds
  if hasBpeSuffix decoded then
    .error .dataLoss
  else
    .ok decoded

/-- Tokenizer::IsIncompleteBpeSequence: a StatusOr holds the DataLoss code
exactly when it is an error of that kind (an ok StatusOr has code kOk). -/
def isIncompleteBpeSequence {α : Type} (result : Except ErrKind α) : Bool :=
  match result with
  | .error .dataLoss => true
  | _ => false

/-! ## Benchmark recorder (src/runtime/engine/io_types.cc)

BenchmarkInfo keeps a start-time map and a finished-phase map.  Times are
opaque integers fed in by the caller (the code reads absl::Now()). -/

/-- The mutable state of BenchmarkInfo that the init-phase timers touch:
`start_time_map_` and `init_phases_` (durations). -/
structure BenchmarkInfo where
  startTimeMap : List (String × Int)
  initPhases : List (String × Int)
deriving DecidableEq, Repr

/-- BenchmarkInfo::TimeInitPhaseStart at wall-clock time `now`: duplicate
start of the same phase is an Internal error and leaves the state alone. -/
def timeInitPhaseStart (b : BenchmarkInfo) (phaseName : String) (now : Int) :
    Except ErrKind Unit × BenchmarkInfo :=
  if (b.startTimeMap.lookup phaseName).isSome then
    (.error .internal, b)
  else
    (.ok (), { b with startTimeMap := (phaseName, now) :: b.startTimeMap })

/-- BenchmarkInfo::TimeInitPhaseEnd at wall-clock time `now`: end without a
start is an Internal error and leaves the state alone; otherwise the phase
duration now - start is recorded. -/
def timeInitPhaseEnd (b : BenchmarkInfo) (phaseName : String) (now : Int) :
    Except ErrKind Unit × BenchmarkInfo :=
  match b.startTimeMap.lookup phaseName with
  | none => (.error .internal, b)
  | some start =>
      (.ok (), { b with initPhases := (phaseName, now - start) :: b.initPhases })

/-! ## Response container (src/runtime/engine/io_types.cc)

The scores are C++ floats; the embedded code never computes with them, it
only stores the default fill -infinity or caller-written values, so a float
is modelled as a tagged value with a distinguished negative infinity. -/

/-- A stored C++ float: negative infinity (the default fill of the scores
vector) or an ordinary value. -/
inductive FloatVal where
  | negInf : FloatVal
  | val : Rat → FloatVal
deriving DecidableEq, Repr

/-- The Responses container: candidate count, texts and lazily allocated
scores. -/
structure Responses where
  numOutputCandidates : Int
  responseTexts : List String
  scores : List FloatVal
deriving Repr

/-- Responses::Responses(int): texts sized to the candidate count, scores
left empty (lazily allocated). -/
def mkResponses (numOutputCandidates : Int) : Responses :=
  { numOutputCandidates := numOutputCandidates
    responseTexts := List.replicate numOutputCandidates.toNat ""
    scores := [] }

/-- Responses::GetScoreAt: InvalidArgument when the scores vector is still
unallocated, or when the index is out of the scores vector range. -/
def getScoreAt (r : Responses) (index : Int) : Except ErrKind FloatVal :=
  if r.scores.isEmpty then
    .error .invalidArgument
  else if index < 0 ∨ (r.scores.length : Int) ≤ index then
    .error .invalidArgument
  else
    .ok (r.scores.getD index.toNat .negInf)

/-- Responses::GetMutableScores: on first call allocates the scores vector
to num_output_candidates_ entries of -infinity; afterwards a no-op (the
returned reference is where callers mutate). -/
def getMutableScores (r : Responses) : Responses :=
  if r.scores.isEmpty then
    { r with scores := List.replicate r.numOutputCandidates.toNat .negInf }
  else
    r

/-! ## NPU compiled-model executor (src/runtime/engine/io_types.h, second
document section: llm_litert_npu_compiled_model_executor.cc)

The executor state that Prefill and Decode read and write is
`current_step_`, `next_input_token_id_` and the latency counters; the host
visible buffer writes (embedder token input and RoPE position input) are
recorded as an explicit write trace of (token, position) pairs in buffer
index order.  The five compiled-subgraph Run calls are external device
invocations, so they enter the model as a failure oracle `fail : Stage →
Bool`; a Run failure surfaces through RET_CHECK as an error status (the
spec classifies subgraph Run failures as Internal). -/

/-- The five pipeline stages invoked by one prefill chunk or one decode
step, in program order. -/
inductive Stage where
  | embedder : Stage
  | rope : Stage
  | mask : Stage
  | llm : Stage
  | cacheUpdate : Stage
deriving DecidableEq, Repr

/-- The stage order of PrefillInternal and of Decode: embedder, RoPE,
mask, LLM, cache update. -/
def stageOrder : List Stage := [.embedder, .rope, .mask, .llm, .cacheUpdate]

/-- The first stage whose compiled-model Run call fails, if any. -/
def firstFailingStage (fail : Stage → Bool) : Option Stage :=
  stageOrder.find? fail

/-- The executor state touched by Prefill and Decode: current_step_,
next_input_token_id_, and the two token counters of latency_stats_ that
the claims mention. -/
structure ExecState where
  currentStep : Int
  nextInputTokenId : Int
  prefillNumTokens : Int
  decodeNumTokens : Int
deriving DecidableEq, Repr

/-- The token-filling loop of PrefillInternal, transliterated:

    for (int i = 0, input_idx = 0; i < ids.size() - 1; input_idx++, current_step_++) {
      if (next_input_token_id_ != -1) {
        prefill_input_ptr[input_idx] = next_input_token_id_;
        next_input_token_id_ = -1;
      } else {
        prefill_input_ptr[input_idx] = ids[i];
        i++;
      }
      prefill_input_pos_ptr[input_idx] = current_step_;
    }

Each iteration appends the pair written into the token buffer and the
position buffer at the running input_idx (the buffers were zeroed just
before the loop).  The loop runs at most ids.length iterations (the carry
branch fires at most once, every other iteration advances i), so the
explicit fuel ids.length never runs out; the fuel only makes the
recursion structural.  Returns (write trace, final current_step_). -/
def prefillLoopGo : Nat → List Int → Nat → Int → Int → List (Int × Int) × Int
  | 0, _, _, _, step => ([], step)
  | fuel + 1, ids, i, next, step =>
      if i < ids.length - 1 then
        if next ≠ -1 then
          let r := prefillLoopGo fuel ids i (-1) (step + 1)
          ((next, step) :: r.1, r.2)
        else
          let r := prefillLoopGo fuel ids (i + 1) next (step + 1)
          ((ids.getD i 0, step) :: r.1, r.2)
      else
        ([], step)

/-- The result of one PrefillInternal call: the executor state as left by
the call (mutated even when a stage fails: the C++ method updates the
members before invoking the stages and never rolls back), the trace of
(token, position) writes, and the status. -/
structure ChunkOut where
  state : ExecState
  trace : List (Int × Int)
  result : Except ErrKind Unit
deriving Repr

/-- LlmLiteRtNpuCompiledModelExecutor::PrefillInternal on one chunk `ids`:
zero the buffers, write time_step[0] = current_step_, run the filling loop
(which advances current_step_ and may consume next_input_token_id_), stash
the last id of the chunk in next_input_token_id_, then run the five stages
in order; the first failing stage aborts with an error, after the state
was already committed. -/
def prefillInternal (fail : Stage → Bool) (s : ExecState) (ids : List Int) : ChunkOut :=
  let r := prefillLoopGo ids.length ids 0 s.nextInputTokenId s.currentStep
  let s1 : ExecState :=
    { s with currentStep := r.2, nextInputTokenId := ids.getLastD 0 }
  match firstFailingStage fail with
  | some _ => { state := s1, trace := r.1, result := .error .internal }
  | none => { state := s1, trace := r.1, result := .ok () }

/-- kPrefillSize: the single prefill chunk capacity the executor registers
(prefill_signature_map_ = { 128 -> "prefill_128" }). -/
def kPrefillSize : Nat := 128

/-- Modelled from the spec: GetOptimizedPrefillWorkGroups (declared in
runtime/executor/litert_compiled_model_executor_utils.h, whose source is
not part of this repository snapshot).  The spec describes the greedy
largest-first decomposition of the input length over the supported chunk
lengths, and its scenarios S3/S4 and the open-question note about chunk
lengths other than 128 pin down that a remainder shorter than every
supported length becomes one final short chunk.  With the single supported
length 128 the greedy decomposition is n / 128 chunks of 128 followed by
one chunk of n % 128 when that remainder is nonzero.  Each list entry is
the token count of one work group. -/
def workGroups (n : Nat) : List Nat :=
  List.replicate (n / kPrefillSize) kPrefillSize ++
    (if n % kPrefillSize = 0 then [] else [n % kPrefillSize])

/-- The chunk loop of Prefill: run PrefillInternal on the first
prefill_length ids, drop them, add kPrefillSize to the
prefill_num_tokens counter, and continue; a failed chunk aborts.  After
the loop, RET_CHECK_EQ(ids.size(), 0).SetCode(kInternal) reports a
decomposition that does not cover the input. -/
def prefillChunks (fail : Stage → Bool) : List Nat → ExecState → List Int → ChunkOut
  | [], s, ids =>
      if ids.length ≠ 0 then
        { state := s, trace := [], result := .error .internal }
      else
        { state := s, trace := [], result := .ok () }
  | c :: cs, s, ids =>
      let out := prefillInternal fail s (ids.take c)
      match out.result with
      | .error e => { state := out.state, trace := out.trace, result := .error e }
      | .ok () =>
          let s2 : ExecState :=
            { out.state with
                prefillNumTokens := out.state.prefillNumTokens + (kPrefillSize : Int) }
          let rest := prefillChunks fail cs s2 (ids.drop c)
          { state := rest.state, trace := out.trace ++ rest.trace, result := rest.result }

/-- LlmLiteRtNpuCompiledModelExecutor::Prefill on a [batch, N] token-id
tensor holding `ids`: RET_CHECK the batch dimension is 1 and N > 0 (bad
shapes are InvalidArgument per the spec error table; the RET_CHECK macro
source is not part of this snapshot), decompose into work groups and run
the chunk loop. -/
def prefillRun (fail : Stage → Bool) (s : ExecState) (batch : Nat) (ids : List Int) :
    ChunkOut :=
  if batch ≠ 1 then
    { state := s, trace := [], result := .error .invalidArgument }
  else if ids.length = 0 then
    { state := s, trace := [], result := .error .invalidArgument }
  else
    prefillChunks fail (workGroups ids.length) s ids

/-! ### Decode (src/runtime/engine/io_types.h, second document section) -/

/-- The result of the inner Decode(const ExecutorInputs&, TensorBuffer&):
the executor state as left by the call, the token id written into the
embedder decode input buffer (none when the call errors before the buffer
writes), and the status. -/
structure DecodeInnerOut where
  state : ExecState
  embedderInput : Option Int
  result : Except ErrKind Unit
deriving Repr

/-- The tail of the inner Decode after the input token id was chosen:
fail InvalidArgument when the id is the sentinel -1, invalidate
next_input_token_id_ unconditionally, write the id and current_step_ into
the decode input buffers, run the five stages in order, and increment
current_step_ on success. -/
def decodeWithId (fail : Stage → Bool) (tokenId : Int) (s : ExecState) : DecodeInnerOut :=
  if tokenId = -1 then
    { state := s, embedderInput := none, result := .error .invalidArgument }
  else
    let s1 : ExecState := { s with nextInputTokenId := -1 }
    match firstFailingStage fail with
    | some _ => { state := s1, embedderInput := some tokenId, result := .error .internal }
    | none =>
        { state := { s1 with currentStep := s1.currentStep + 1 }
          embedderInput := some tokenId
          result := .ok () }

/-- LlmLiteRtNpuCompiledModelExecutor::Decode(const ExecutorInputs&,
TensorBuffer&).  `callerIds` models the optional text token ids of the
ExecutorInputs: none when no text data is attached, some ids for a tensor
of that many int32 ids (its byte size is 4 * length).  The id defaults to
next_input_token_id_; a non-empty caller tensor overrides it and
RET_CHECK_EQ(size, 4) rejects more than one id. -/
def decodeInner (fail : Stage → Bool) (callerIds : Option (List Int)) (s : ExecState) :
    DecodeInnerOut :=
  match callerIds with
  | some ids =>
      if ids.length ≠ 0 then
        if ids.length ≠ 1 then
          { state := s, embedderInput := none, result := .error .invalidArgument }
        else
          decodeWithId fail (ids.getD 0 0) s
      else
        decodeWithId fail s.nextInputTokenId s
  | none => decodeWithId fail s.nextInputTokenId s

/-- The greedy argmax loop of the outer Decode, transliterated:

    int max_index = 0;
    int16_t max_value = logits_buffer_int16[0];
    for (int i = 1; i < logits_buffer_int16.size(); ++i) {
      if (logits_buffer_int16[i] > max_value) {
        max_value = logits_buffer_int16[i];
        max_index = i;
      }
    }

`rest` is the part of the buffer not yet scanned, `i` the index of its
head in the full buffer. -/
def argmaxLoop : List Int → Nat → Nat → Int → Nat
  | [], _, maxIndex, _ => maxIndex
  | x :: rest, i, maxIndex, maxValue =>
      if x > maxValue then argmaxLoop rest (i + 1) i x
      else argmaxLoop rest (i + 1) maxIndex maxValue

/-- Greedy argmax over the int16 logits buffer, starting from index 0 as
in the source (meaningful for a non-empty buffer; the C++ reads entry 0
unconditionally). -/
def argmaxInt16 : List Int → Nat
  | [] => 0
  | x :: rest => argmaxLoop rest 1 0 x

/-- The result of the outer Decode(TensorBuffer&): final state, the token
written into the embedder decode input, the token id written into the
caller output buffer (none when the call fails) and the status. -/
structure DecodeOut where
  state : ExecState
  embedderInput : Option Int
  outputTokens : Option Int
  result : Except ErrKind Unit
deriving Repr

/-- LlmLiteRtNpuCompiledModelExecutor::Decode(TensorBuffer& output_tokens):
run the inner Decode with empty ExecutorInputs, read the decode logits
buffer as int16 (`logits` is its contents after the LLM stage ran),
greedy-argmax, store the winner in next_input_token_id_, write it to the
caller output buffer and bump decode_num_tokens. -/
def decodeRun (fail : Stage → Bool) (s : ExecState) (logits : List Int) : DecodeOut :=
  let inner := decodeInner fail none s
  match inner.result with
  | .error e =>
      { state := inner.state, embedderInput := inner.embedderInput
        outputTokens := none, result := .error e }
  | .ok () =>
      let maxIndex := argmaxInt16 logits
      let s2 : ExecState :=
        { inner.state with
            nextInputTokenId := (maxIndex : Int)
            decodeNumTokens := inner.state.decodeNumTokens + 1 }
      { state := s2, embedderInput := inner.embedderInput
        outputTokens := some (maxIndex : Int), result := .ok () }

/-- The specification-side reading of the greedy-argmax contract: `k`
indexes a maximal element of `l` and every equal element sits at `k` or
later (ties broken to the lowest index). -/
def isLeastArgmax (l : List Int) (k : Nat) : Prop :=
  ∃ hk : k < l.length,
    (∀ j, (hj : j < l.length) → l[j] ≤ l[k]) ∧
    (∀ j, (hj : j < l.length) → l[j] = l[k] → k ≤ j)

/-- The (token, position) pairs the prefill loop writes at consecutive
buffer indices when it walks a token list starting at a given step. -/
def zipSteps : List Int → Int → List (Int × Int)
  | [], _ => []
  | t :: ts, step => (t, step) :: zipSteps ts (step + 1)

/-! ## Theorems -/

/-- A stage-failure oracle that makes the embedder Run call fail and every
other stage succeed. -/
def failEmbedder : Stage → Bool
  | .embedder => true
  | _ => false

/-- The all-stages-succeed oracle. -/
def allStagesOk : Stage → Bool := fun _ => false

theorem firstFailingStage_allOk : firstFailingStage allStagesOk = none := rfl

/-- C2 (amended): a Prefill chunk commits current_step_ and
next_input_token_id_ during input preparation, before any stage runs, and
never rolls back: the state and buffer trace a failed chunk leaves are the
ones a fully successful chunk leaves, for every failure oracle. -/
theorem prefill_chunk_state_committed_before_stages (fail : Stage → Bool)
    (s : ExecState) (ids : List Int) :
    (prefillInternal fail s ids).state = (prefillInternal allStagesOk s ids).state ∧
    (prefillInternal fail s ids).trace = (prefillInternal allStagesOk s ids).trace := by
  cases h : firstFailingStage fail <;>
    simp [prefillInternal, h, firstFailingStage_allOk]

/-- C2 (counterexample to the claim as stated): prefilling the two-token
input [5, 6] from the fresh state with a failing embedder stage returns an
error, yet current_step_ has moved from 0 to 1 and next_input_token_id_
from -1 to 6 — the state does not reflect the values before the chunk. -/
theorem prefill_chunk_failure_mutates_state :
    (prefillRun failEmbedder ⟨0, -1, 0, 0⟩ 1 [5, 6]).result = .error .internal ∧
    (prefillRun failEmbedder ⟨0, -1, 0, 0⟩ 1 [5, 6]).state.currentStep = 1 ∧
    (prefillRun failEmbedder ⟨0, -1, 0, 0⟩ 1 [5, 6]).state.nextInputTokenId = 6 ∧
    ¬((prefillRun failEmbedder ⟨0, -1, 0, 0⟩ 1 [5, 6]).state.currentStep = 0 ∧
      (prefillRun failEmbedder ⟨0, -1, 0, 0⟩ 1 [5, 6]).state.nextInputTokenId = -1) := by
  decide

/-- C4: Prefill rejects a token tensor whose batch dimension is not 1 or
that carries zero tokens with InvalidArgument and leaves the executor
state untouched. -/
theorem prefill_rejects_bad_shape (fail : Stage → Bool) (s : ExecState)
    (batch : Nat) (ids : List Int) (h : batch ≠ 1 ∨ ids.length = 0) :
    prefillRun fail s batch ids =
      { state := s, trace := [], result := .error .invalidArgument } := by
  unfold prefillRun
  rcases h with h | h
  · simp [h]
  · rcases eq_or_ne batch 1 with hb | hb <;> simp [h, hb]

/-- C4 witness: batch 2 and an empty id list each fail as claimed. -/
theorem prefill_rejects_bad_shape_witness :
    prefillRun allStagesOk ⟨0, -1, 0, 0⟩ 2 [3] =
      { state := ⟨0, -1, 0, 0⟩, trace := [], result := .error .invalidArgument } ∧
    prefillRun allStagesOk ⟨0, -1, 0, 0⟩ 1 [] =
      { state := ⟨0, -1, 0, 0⟩, trace := [], result := .error .invalidArgument } :=
  ⟨prefill_rejects_bad_shape allStagesOk ⟨0, -1, 0, 0⟩ 2 [3] (Or.inl (by decide)),
   prefill_rejects_bad_shape allStagesOk ⟨0, -1, 0, 0⟩ 1 [] (Or.inr (by decide))⟩

/-- C5: the inner Decode chooses its input token as specified: a caller
tensor with two or more ids is rejected with InvalidArgument before any
state change; with no usable caller tensor and sentinel
next_input_token_id_ it fails with InvalidArgument; a stored id is used
when no caller tensor is given; a single caller id is used (overriding any
stored id); and whenever a token was selected, next_input_token_id_ is
invalidated before the stages run, whatever their outcome. -/
theorem decode_input_selection (fail : Stage → Bool) (s : ExecState)
    (ids : List Int) (x : Int) :
    (2 ≤ ids.length →
      decodeInner fail (some ids) s =
        { state := s, embedderInput := none, result := .error .invalidArgument }) ∧
    (s.nextInputTokenId = -1 →
      decodeInner fail none s =
        { state := s, embedderInput := none, result := .error .invalidArgument } ∧
      decodeInner fail (some []) s =
        { state := s, embedderInput := none, result := .error .invalidArgument }) ∧
    (s.nextInputTokenId ≠ -1 →
      (decodeInner fail none s).embedderInput = some s.nextInputTokenId ∧
      (decodeInner fail (some []) s).embedderInput = some s.nextInputTokenId ∧
      (decodeInner fail none s).state.nextInputTokenId = -1) ∧
    (x ≠ -1 →
      (decodeInner fail (some [x]) s).embedderInput = some x ∧
      (decodeInner fail (some [x]) s).state.nextInputTokenId = -1) := by
  refine ⟨?_, ?_, ?_, ?_⟩
  · intro h
    simp [decodeInner, show ids.length ≠ 0 by omega, show ids.length ≠ 1 by omega]
  · intro h
    simp [decodeInner, decodeWithId, h]
  · intro h
    cases hf : firstFailingStage fail <;>
      simp [decodeInner, decodeWithId, h, hf]
  · intro h
    cases hf : firstFailingStage fail <;>
      simp [decodeInner, decodeWithId, h, hf]

/-- C5 witness: with stored id 7, a two-id caller tensor is rejected, a
single caller id 9 is selected over the stored id, and the stored id is
invalidated. -/
theorem decode_input_selection_witness :
    decodeInner allStagesOk (some [1, 2]) ⟨3, 7, 0, 0⟩ =
      { state := ⟨3, 7, 0, 0⟩, embedderInput := none,
        result := .error .invalidArgument } ∧
    (decodeInner allStagesOk (some [9]) ⟨3, 7, 0, 0⟩).embedderInput = some 9 ∧
    (decodeInner allStagesOk (some [9]) ⟨3, 7, 0, 0⟩).state.nextInputTokenId = -1 :=
  ⟨(decode_input_selection allStagesOk ⟨3, 7, 0, 0⟩ [1, 2] 9).1 (by decide),
   ((decode_input_selection allStagesOk ⟨3, 7, 0, 0⟩ [1, 2] 9).2.2.2 (by decide)).1,
   ((decode_input_selection allStagesOk ⟨3, 7, 0, 0⟩ [1, 2] 9).2.2.2 (by decide)).2⟩

/-- C7: TokenIdsToText signals the incomplete-BPE error kind (as
recognized by IsIncompleteBpeSequence) exactly when the decoded byte
string ends with the UTF-8 replacement character, and otherwise returns
the decoded string. -/
theorem tokenIdsToText_incomplete_iff_suffix (decode : List Int → List Nat)
    (tokenIds : List Int) :
    (isIncompleteBpeSequence (tokenIdsToText decode tokenIds) = true ↔
      hasBpeSuffix (decode tokenIds) = true) ∧
    (hasBpeSuffix (decode tokenIds) = false →
      tokenIdsToText decode tokenIds = .ok (decode tokenIds)) := by
  unfold tokenIdsToText isIncompleteBpeSequence
  cases h : hasBpeSuffix (decode tokenIds) <;> simp [h]

/-- C7 witness: a decode result that is exactly the replacement character
is flagged incomplete; a decode result "A" (byte 65) passes through. -/
theorem tokenIdsToText_incomplete_iff_suffix_witness :
    isIncompleteBpeSequence
      (tokenIdsToText (fun _ => [0xEF, 0xBF, 0xBD]) [1]) = true ∧
    tokenIdsToText (fun _ => [65]) [2] = .ok [65] :=
  ⟨(tokenIdsToText_incomplete_iff_suffix (fun _ => [0xEF, 0xBF, 0xBD]) [1]).1.mpr
      (by decide),
   (tokenIdsToText_incomplete_iff_suffix (fun _ => [65]) [2]).2 (by decide)⟩

/-- C9: a duplicate TimeInitPhaseStart and a TimeInitPhaseEnd without a
matching start each return the Internal error kind and leave the recorded
phase data (both maps) unchanged. -/
theorem initPhase_errors (b : BenchmarkInfo) (phaseName : String) (now : Int) :
    ((b.startTimeMap.lookup phaseName).isSome →
      timeInitPhaseStart b phaseName now = (.error .internal, b)) ∧
    (b.startTimeMap.lookup phaseName = none →
      timeInitPhaseEnd b phaseName now = (.error .internal, b)) := by
  constructor
  · intro h
    simp [timeInitPhaseStart, h]
  · intro h
    simp [timeInitPhaseEnd, h]

/-- C9 witness: with phase "load" already started, a second start of
"load" fails Internal; an end of the never-started "gpu" fails Internal;
the state is unchanged both times. -/
theorem initPhase_errors_witness :
    timeInitPhaseStart ⟨[("load", 5)], []⟩ "load" 9 =
      (.error .internal, ⟨[("load", 5)], []⟩) ∧
    timeInitPhaseEnd ⟨[("load", 5)], []⟩ "gpu" 9 =
      (.error .internal, ⟨[("load", 5)], []⟩) :=
  ⟨(initPhase_errors ⟨[("load", 5)], []⟩ "load" 9).1 (by decide),
   (initPhase_errors ⟨[("load", 5)], []⟩ "gpu" 9).2 (by decide)⟩

/-- C10: for a positive candidate count, every GetScoreAt call made before
the first GetMutableScores call fails with InvalidArgument (the scores
vector is still unallocated), and after the first GetMutableScores call
every in-range index reads the freshly filled negative infinity. -/
theorem getScoreAt_lazy_alloc (n : Int) (hn : 0 < n) :
    (∀ i : Int, getScoreAt (mkResponses n) i = .error .invalidArgument) ∧
    (∀ i : Int, 0 ≤ i → i < n →
      getScoreAt (getMutableScores (mkResponses n)) i = .ok .negInf) := by
  constructor
  · intro i
    simp [mkResponses, getScoreAt]
  · intro i h0 hlt
    have htn : i.toNat < n.toNat := by omega
    unfold mkResponses getMutableScores getScoreAt
    simp only [List.isEmpty_nil, if_true, reduceIte]
    have hne : (List.replicate n.toNat FloatVal.negInf).isEmpty = false := by
      have : n.toNat ≠ 0 := by omega
      simp [List.isEmpty_iff, this]
    rw [hne]
    have hcond : ¬(i < 0 ∨
        ((List.replicate n.toNat FloatVal.negInf).length : Int) ≤ i) := by
      simp only [List.length_replicate]
      omega
    simp only [if_neg hcond, Bool.false_eq_true, if_false]
    rw [List.getD_eq_getElem _ _ (by simpa using htn), List.getElem_replicate]

/-- C10 witness: with two candidates, index 0 errors before allocation and
reads negative infinity after the first GetMutableScores call. -/
theorem getScoreAt_lazy_alloc_witness :
    getScoreAt (mkResponses 2) 0 = .error .invalidArgument ∧
    getScoreAt (getMutableScores (mkResponses 2)) 0 = .ok .negInf :=
  ⟨(getScoreAt_lazy_alloc 2 (by decide)).1 0,
   (getScoreAt_lazy_alloc 2 (by decide)).2 0 (by decide) (by decide)⟩

/-- A lookup in the files map hits exactly the names in the key list. -/
theorem lookup_isSome_iff_mem_keys {α : Type} (files : List (String × α))
    (name : String) :
    (files.lookup name).isSome = true ↔ name ∈ files.map Prod.fst := by
  induction files with
  | nil => simp
  | cons p rest ih =>
      obtain ⟨k, v⟩ := p
      by_cases h : name = k
      · subst h
        simp [List.lookup]
      · have hbeq : (name == k) = false := by simp [h]
        simp only [List.lookup, hbeq, List.map_cons, List.mem_cons]
        rw [ih]
        simp [h]

/-- Every member of a string list appears (as a character run) inside the
comma-joined string. -/
theorem mem_data_infix_strJoin (xs : List String) (f : String) (hf : f ∈ xs) :
    f.data <:+: (strJoin xs).data := by
  induction xs with
  | nil => cases hf
  | cons x rest ih =>
      cases rest with
      | nil =>
          have hfx : f = x := by simpa using hf
          subst hfx
          exact List.infix_refl _
      | cons y ys =>
          have hunfold : strJoin (x :: y :: ys) = x ++ ", " ++ strJoin (y :: ys) := rfl
          rw [hunfold]
          rcases List.mem_cons.mp hf with rfl | hmem
          · rw [String.data_append, String.data_append, List.append_assoc]
            exact (List.prefix_append f.data _).isInfix
          · have h2 : (strJoin (y :: ys)).data <:+
                ((x ++ ", ") ++ strJoin (y :: ys)).data := by
              rw [String.data_append]
              exact List.suffix_append _ _
            exact (ih hmem).trans h2.isInfix

/-- C6: GetFile succeeds exactly on the names ListFiles returns, and on
any other name it fails NotFound with a message in which every file name
of the bundle appears. -/
theorem getFile_listFiles_agree {α : Type} (b : ModelAssetBundle α)
    (name : String) :
    ((∃ v, getFile b name = .ok v) ↔ name ∈ listFiles b) ∧
    (name ∉ listFiles b →
      getFile b name = .error (.notFound (getFileNotFoundMsg b name)) ∧
      ∀ f ∈ listFiles b, f.data <:+: (getFileNotFoundMsg b name).data) := by
  have hiff := lookup_isSome_iff_mem_keys b.files name
  constructor
  · constructor
    · rintro ⟨v, hv⟩
      unfold getFile at hv
      cases hl : b.files.lookup name with
      | none => rw [hl] at hv; cases hv
      | some w => exact hiff.mp (by simp [hl])
    · intro hmem
      have hsome := hiff.mpr hmem
      cases hl : b.files.lookup name with
      | none => rw [hl] at hsome; cases hsome
      | some w =>
          refine ⟨w, ?_⟩
          unfold getFile
          rw [hl]
  · intro hnot
    have hl : b.files.lookup name = none := by
      cases hl : b.files.lookup name with
      | none => rfl
      | some w => exact absurd (hiff.mp (by simp [hl])) hnot
    constructor
    · unfold getFile
      rw [hl]
    · intro f hfmem
      have h1 := mem_data_infix_strJoin (listFiles b) f hfmem
      unfold getFileNotFoundMsg
      rw [String.data_append, String.data_append, String.data_append]
      exact h1.trans (List.infix_append _ _ _)

/-- C6 witness: in a bundle holding a.tflite and b.json, a.tflite is
retrievable, nope.bin is not, and the NotFound message mentions both
names. -/
theorem getFile_listFiles_agree_witness :
    ((∃ v, getFile ⟨[("a.tflite", 10), ("b.json", 20)]⟩ "a.tflite" = .ok v)) ∧
    getFile ⟨[("a.tflite", 10), ("b.json", 20)]⟩ "nope.bin" =
      .error (.notFound
        (getFileNotFoundMsg ⟨[("a.tflite", 10), ("b.json", 20)]⟩ "nope.bin")) ∧
    ∀ f ∈ listFiles (⟨[("a.tflite", 10), ("b.json", 20)]⟩ : ModelAssetBundle Nat),
      f.data <:+:
        (getFileNotFoundMsg ⟨[("a.tflite", 10), ("b.json", 20)]⟩ "nope.bin").data :=
  ⟨(getFile_listFiles_agree ⟨[("a.tflite", 10), ("b.json", 20)]⟩ "a.tflite").1.mpr
      (by decide),
   ((getFile_listFiles_agree ⟨[("a.tflite", 10), ("b.json", 20)]⟩ "nope.bin").2
      (by decide)).1,
   ((getFile_listFiles_agree ⟨[("a.tflite", 10), ("b.json", 20)]⟩ "nope.bin").2
      (by decide)).2⟩

/-- Invariant of the argmax scan: if `bi` indexes the first maximum of the
processed prefix `pre` (with running value pre[bi]), then finishing the
scan over `xs` yields the first maximum of `pre ++ xs`. -/
theorem argmaxLoop_spec : ∀ (xs pre : List Int) (bi : Nat) (hbi : bi < pre.length)
    (hmax : ∀ j, (hj : j < pre.length) → pre[j] ≤ pre[bi])
    (hties : ∀ j, (hj : j < pre.length) → pre[j] = pre[bi] → bi ≤ j),
    isLeastArgmax (pre ++ xs) (argmaxLoop xs pre.length bi pre[bi]) := by
  intro xs
  induction xs with
  | nil =>
      intro pre bi hbi hmax hties
      simp only [argmaxLoop, List.append_nil]
      exact ⟨hbi, hmax, hties⟩
  | cons x rest ih =>
      intro pre bi hbi hmax hties
      have hx : (pre ++ [x])[pre.length] = x := by
        apply List.getElem_concat_length
        rfl
      have hpre : ∀ j, (hj : j < pre.length) → (hj2 : j < (pre ++ [x]).length) →
          (pre ++ [x])[j] = pre[j] := by
        intro j hj hj2
        exact List.getElem_append_left hj
      have hassoc : pre ++ x :: rest = (pre ++ [x]) ++ rest := by simp
      rw [hassoc]
      simp only [argmaxLoop]
      by_cases hgt : x > pre[bi]
      · rw [if_pos hgt]
        have hlen : (pre ++ [x]).length = pre.length + 1 := by simp
        have hbi2 : pre.length < (pre ++ [x]).length := by simp
        have hmax2 : ∀ j, (hj : j < (pre ++ [x]).length) →
            (pre ++ [x])[j] ≤ (pre ++ [x])[pre.length] := by
          intro j hj
          rw [hx]
          rw [hlen] at hj
          rcases Nat.lt_succ_iff_lt_or_eq.mp hj with hj2 | hj2
          · rw [hpre j hj2 (by simp; omega)]
            exact le_of_lt (lt_of_le_of_lt (hmax j hj2) hgt)
          · subst hj2
            rw [hx]
        have hties2 : ∀ j, (hj : j < (pre ++ [x]).length) →
            (pre ++ [x])[j] = (pre ++ [x])[pre.length] → pre.length ≤ j := by
          intro j hj hej
          rw [hx] at hej
          rw [hlen] at hj
          rcases Nat.lt_succ_iff_lt_or_eq.mp hj with hj2 | hj2
          · rw [hpre j hj2 (by simp; omega)] at hej
            exact absurd hej (ne_of_lt (lt_of_le_of_lt (hmax j hj2) hgt))
          · omega
        have hcall := ih (pre ++ [x]) pre.length hbi2 hmax2 hties2
        rw [hlen, hx] at hcall
        exact hcall
      · rw [if_neg hgt]
        have hlen : (pre ++ [x]).length = pre.length + 1 := by simp
        have hbi2 : bi < (pre ++ [x]).length := by simp; omega
        have hbix : (pre ++ [x])[bi] = pre[bi] := hpre bi hbi (by simp; omega)
        have hmax2 : ∀ j, (hj : j < (pre ++ [x]).length) →
            (pre ++ [x])[j] ≤ (pre ++ [x])[bi] := by
          intro j hj
          rw [hbix]
          rw [hlen] at hj
          rcases Nat.lt_succ_iff_lt_or_eq.mp hj with hj2 | hj2
          · rw [hpre j hj2 (by simp; omega)]
            exact hmax j hj2
          · subst hj2
            rw [hx]
            omega
        have hties2 : ∀ j, (hj : j < (pre ++ [x]).length) →
            (pre ++ [x])[j] = (pre ++ [x])[bi] → bi ≤ j := by
          intro j hj hej
          rw [hbix] at hej
          rw [hlen] at hj
          rcases Nat.lt_succ_iff_lt_or_eq.mp hj with hj2 | hj2
          · rw [hpre j hj2 (by simp; omega)] at hej
            exact hties j hj2 hej
          · omega
        have hcall := ih (pre ++ [x]) bi hbi2 hmax2 hties2
        rw [hlen, hbix] at hcall
        exact hcall

/-- The greedy scan of the source returns the index of the maximal logit,
ties broken to the lowest index. -/
theorem argmax_isLeastArgmax (l : List Int) (h : l ≠ []) :
    isLeastArgmax l (argmaxInt16 l) := by
  cases l with
  | nil => exact absurd rfl h
  | cons x xs =>
      have h0 : (0 : Nat) < ([x] : List Int).length := by simp
      have hmax : ∀ j, (hj : j < ([x] : List Int).length) →
          ([x] : List Int)[j] ≤ ([x] : List Int)[0] := by
        intro j hj
        have : j = 0 := by simpa using hj
        subst this
        exact le_refl _
      have hties : ∀ j, (hj : j < ([x] : List Int).length) →
          ([x] : List Int)[j] = ([x] : List Int)[0] → 0 ≤ j := by
        intro j _ _
        exact Nat.zero_le j
      have hcall := argmaxLoop_spec xs [x] 0 h0 hmax hties
      simpa [argmaxInt16] using hcall

/-- C3: a successful Decode emits the index of the maximal int16 logit
(ties to the lowest index), writes it to the caller output buffer, stores
it in next_input_token_id_ and advances current_step_ by exactly 1. -/
theorem decode_emits_greedy_argmax (fail : Stage → Bool) (s : ExecState)
    (logits : List Int) (h1 : s.nextInputTokenId ≠ -1)
    (h2 : firstFailingStage fail = none) (h3 : logits ≠ []) :
    (decodeRun fail s logits).result = .ok () ∧
    (decodeRun fail s logits).outputTokens = some ((argmaxInt16 logits : Nat) : Int) ∧
    isLeastArgmax logits (argmaxInt16 logits) ∧
    (decodeRun fail s logits).state.nextInputTokenId =
      ((argmaxInt16 logits : Nat) : Int) ∧
    (decodeRun fail s logits).state.currentStep = s.currentStep + 1 := by
  refine ⟨?_, ?_, argmax_isLeastArgmax logits h3, ?_, ?_⟩ <;>
    simp [decodeRun, decodeInner, decodeWithId, h1, h2]

/-- C3 witness: decoding with stored id 9 at step 4 over logits
[3, 7, 7, 2] emits index 1 (the first of the tied maxima), stores it and
advances the step to 5. -/
theorem decode_emits_greedy_argmax_witness :
    (decodeRun allStagesOk ⟨4, 9, 0, 0⟩ [3, 7, 7, 2]).result = .ok () ∧
    (decodeRun allStagesOk ⟨4, 9, 0, 0⟩ [3, 7, 7, 2]).outputTokens =
      some ((argmaxInt16 [3, 7, 7, 2] : Nat) : Int) ∧
    isLeastArgmax [3, 7, 7, 2] (argmaxInt16 [3, 7, 7, 2]) ∧
    (decodeRun allStagesOk ⟨4, 9, 0, 0⟩ [3, 7, 7, 2]).state.nextInputTokenId =
      ((argmaxInt16 [3, 7, 7, 2] : Nat) : Int) ∧
    (decodeRun allStagesOk ⟨4, 9, 0, 0⟩ [3, 7, 7, 2]).state.currentStep =
      (⟨4, 9, 0, 0⟩ : ExecState).currentStep + 1 :=
  decode_emits_greedy_argmax allStagesOk ⟨4, 9, 0, 0⟩ [3, 7, 7, 2]
    (by decide) (by decide) (by decide)

/-! ### Closed forms of the prefill token-filling loop -/

theorem zipSteps_append (a b : List Int) (step : Int) :
    zipSteps (a ++ b) step = zipSteps a step ++ zipSteps b (step + (a.length : Int)) := by
  induction a generalizing step with
  | nil => simp [zipSteps]
  | cons x xs ih =>
      show (x, step) :: zipSteps (xs ++ b) (step + 1) =
        (x, step) ::
          (zipSteps xs (step + 1) ++ zipSteps b (step + ((xs.length + 1 : Nat) : Int)))
      rw [ih (step + 1)]
      have harith : step + 1 + (xs.length : Int) = step + ((xs.length + 1 : Nat) : Int) := by
        omega
      rw [harith]

/-- With no pending carry-over token, the loop walks ids[i .. L-2], writing
each at consecutive positions, and advances the step count accordingly. -/
theorem prefillLoopGo_noCarry (fuel : Nat) : ∀ (ids : List Int) (i : Nat) (step : Int),
    ids.length - 1 - i ≤ fuel →
    prefillLoopGo fuel ids i (-1) step =
      (zipSteps ((ids.take (ids.length - 1)).drop i) step,
       step + ((ids.length - 1 - i : Nat) : Int)) := by
  induction fuel with
  | zero =>
      intro ids i step h
      have hdrop : (ids.take (ids.length - 1)).drop i = [] := by
        apply List.drop_eq_nil_of_le
        simp
        omega
      rw [hdrop]
      simp [prefillLoopGo, zipSteps, show ids.length - 1 - i = 0 by omega]
  | succ fuel ih =>
      intro ids i step h
      by_cases hi : i < ids.length - 1
      · have hiL : i < ids.length := by omega
        have hitake : i < (ids.take (ids.length - 1)).length := by simp; omega
        simp only [prefillLoopGo, if_pos hi, ne_eq, not_true_eq_false, if_neg,
          reduceIte]
        rw [ih ids (i + 1) (step + 1) (by omega)]
        rw [List.drop_eq_getElem_cons hitake]
        have hgd : (ids.take (ids.length - 1))[i] = ids[i] := List.getElem_take _
        rw [hgd]
        apply Prod.ext
        · simp only [zipSteps]
          simp [List.getElem?_eq_getElem hiL]
        · simp only []
          show step + 1 + ((ids.length - 1 - (i + 1) : Nat) : Int) =
            step + ((ids.length - 1 - i : Nat) : Int)
          omega
      · have hdrop : (ids.take (ids.length - 1)).drop i = [] := by
          apply List.drop_eq_nil_of_le
          simp
          omega
        simp only [prefillLoopGo, if_neg hi, hdrop, zipSteps,
          show ids.length - 1 - i = 0 by omega]
        simp

/-- With a pending carry-over token and a chunk of at least two ids, the
first iteration writes the carry, then the loop walks ids[0 .. L-2]. -/
theorem prefillLoopGo_carry (fuel : Nat) (ids : List Int) (next step : Int)
    (hnext : next ≠ -1) (hlen : 2 ≤ ids.length) (hfuel : ids.length ≤ fuel) :
    prefillLoopGo fuel ids 0 next step =
      ((next, step) :: zipSteps (ids.take (ids.length - 1)) (step + 1),
       step + 1 + ((ids.length - 1 : Nat) : Int)) := by
  cases fuel with
  | zero => omega
  | succ fuel =>
      have hi : 0 < ids.length - 1 := by omega
      simp only [prefillLoopGo, if_pos hi, if_pos hnext]
      rw [prefillLoopGo_noCarry fuel ids 0 (step + 1) (by omega)]
      simp

/-- On a chunk of at most one id, the loop runs no iterations at all: a
pending carry-over token is neither written nor accounted for. -/
theorem prefillLoopGo_short (fuel : Nat) (ids : List Int) (next step : Int)
    (hlen : ids.length ≤ 1) :
    prefillLoopGo fuel ids 0 next step = ([], step) := by
  cases fuel with
  | zero => rfl
  | succ fuel =>
      have hi : ¬(0 < ids.length - 1) := by omega
      simp only [prefillLoopGo]
      rw [if_neg hi]

theorem getLastD_eq_getLast (l : List Int) (h : l ≠ []) : l.getLastD 0 = l.getLast h := by
  rw [List.getLastD_eq_getLast?, List.getLast?_eq_getLast l h]
  rfl

theorem getLastD_mem (l : List Int) (h : l ≠ []) : l.getLastD 0 ∈ l := by
  rw [getLastD_eq_getLast l h]
  exact List.getLast_mem h

theorem getLastD_append (a b : List Int) (h : b ≠ []) :
    (a ++ b).getLastD 0 = b.getLastD 0 := by
  rw [List.getLastD_eq_getLast?, List.getLastD_eq_getLast?,
    List.getLast?_append_of_ne_nil a h]

/-- A nonempty prefix of length c splits into its first c-1 elements and
its last element. -/
theorem take_decomp (ids : List Int) (c : Nat) (h1 : 1 ≤ c) (h2 : c ≤ ids.length) :
    ids.take c = ids.take (c - 1) ++ [(ids.take c).getLastD 0] := by
  have hlen : (ids.take c).length = c := by
    rw [List.length_take]
    omega
  have hne : ids.take c ≠ [] := by
    intro hcontra
    rw [hcontra] at hlen
    simp at hlen
    omega
  rw [getLastD_eq_getLast _ hne]
  conv_lhs => rw [← List.dropLast_append_getLast hne]
  congr 1
  rw [List.dropLast_eq_take, hlen, List.take_take]
  congr 1
  omega

/-- Closed form of one PrefillInternal chunk with no pending carry-over:
the first L-1 ids go into the buffers at consecutive positions,
current_step_ advances by L-1, and the chunk last id becomes the carry. -/
theorem prefillInternal_noCarry (fail : Stage → Bool) (s : ExecState) (ids : List Int)
    (hnext : s.nextInputTokenId = -1) (hok : firstFailingStage fail = none) :
    prefillInternal fail s ids =
      { state := { currentStep := s.currentStep + ((ids.length - 1 : Nat) : Int),
                   nextInputTokenId := ids.getLastD 0,
                   prefillNumTokens := s.prefillNumTokens,
                   decodeNumTokens := s.decodeNumTokens },
        trace := zipSteps (ids.take (ids.length - 1)) s.currentStep,
        result := .ok () } := by
  unfold prefillInternal
  rw [hnext, prefillLoopGo_noCarry ids.length ids 0 s.currentStep (by omega), hok]
  simp

/-- Closed form of one PrefillInternal chunk (length at least 2) with a
pending carry-over token: the carry is written first, then the first L-1
ids, current_step_ advances by L, and the chunk last id becomes the new
carry. -/
theorem prefillInternal_carry (fail : Stage → Bool) (s : ExecState) (ids : List Int)
    (hnext : s.nextInputTokenId ≠ -1) (hlen : 2 ≤ ids.length)
    (hok : firstFailingStage fail = none) :
    prefillInternal fail s ids =
      { state := { currentStep := s.currentStep + (ids.length : Int),
                   nextInputTokenId := ids.getLastD 0,
                   prefillNumTokens := s.prefillNumTokens,
                   decodeNumTokens := s.decodeNumTokens },
        trace := zipSteps (s.nextInputTokenId :: ids.take (ids.length - 1)) s.currentStep,
        result := .ok () } := by
  unfold prefillInternal
  rw [prefillLoopGo_carry ids.length ids s.nextInputTokenId s.currentStep hnext hlen
    (le_refl _), hok]
  have harith : s.currentStep + 1 + ((ids.length - 1 : Nat) : Int) =
      s.currentStep + (ids.length : Int) := by omega
  rw [harith]
  simp [zipSteps]

/-- PrefillInternal never touches the latency token counters. -/
theorem prefillInternal_preserves_counters (fail : Stage → Bool) (s : ExecState)
    (ids : List Int) :
    (prefillInternal fail s ids).state.prefillNumTokens = s.prefillNumTokens ∧
    (prefillInternal fail s ids).state.decodeNumTokens = s.decodeNumTokens := by
  unfold prefillInternal
  cases firstFailingStage fail <;> simp

/-- A PrefillInternal chunk succeeds exactly when no stage fails. -/
theorem prefillInternal_ok_iff (fail : Stage → Bool) (s : ExecState) (ids : List Int) :
    (prefillInternal fail s ids).result = .ok () ↔ firstFailingStage fail = none := by
  unfold prefillInternal
  cases h : firstFailingStage fail <;> simp

/-- The state the chunk loop continues from after a successful chunk: the
PrefillInternal post-state with kPrefillSize added to the token counter. -/
def chunkAdvance (fail : Stage → Bool) (s : ExecState) (chunk : List Int) : ExecState :=
  { (prefillInternal fail s chunk).state with
      prefillNumTokens :=
        (prefillInternal fail s chunk).state.prefillNumTokens + (kPrefillSize : Int) }

theorem prefillChunks_nil_ok (fail : Stage → Bool) (s : ExecState) (ids : List Int)
    (h : ids.length = 0) :
    prefillChunks fail [] s ids = { state := s, trace := [], result := .ok () } := by
  unfold prefillChunks
  simp [h]

theorem prefillChunks_cons_ok (fail : Stage → Bool) (c : Nat) (cs : List Nat)
    (s : ExecState) (ids : List Int)
    (h : (prefillInternal fail s (ids.take c)).result = .ok ()) :
    prefillChunks fail (c :: cs) s ids =
      { state :=
          (prefillChunks fail cs (chunkAdvance fail s (ids.take c)) (ids.drop c)).state,
        trace := (prefillInternal fail s (ids.take c)).trace ++
          (prefillChunks fail cs (chunkAdvance fail s (ids.take c)) (ids.drop c)).trace,
        result :=
          (prefillChunks fail cs (chunkAdvance fail s (ids.take c)) (ids.drop c)).result } := by
  simp only [prefillChunks, chunkAdvance]
  rw [h]

theorem prefillChunks_cons_err (fail : Stage → Bool) (c : Nat) (cs : List Nat)
    (s : ExecState) (ids : List Int) (e : ErrKind)
    (h : (prefillInternal fail s (ids.take c)).result = .error e) :
    prefillChunks fail (c :: cs) s ids =
      { state := (prefillInternal fail s (ids.take c)).state,
        trace := (prefillInternal fail s (ids.take c)).trace,
        result := .error e } := by
  simp only [prefillChunks]
  rw [h]

/-- Every successful chunk loop adds kPrefillSize to prefill_num_tokens,
once per chunk, whatever the chunk lengths are. -/
theorem prefillChunks_counter (fail : Stage → Bool) :
    ∀ (cs : List Nat) (s : ExecState) (ids : List Int),
      (prefillChunks fail cs s ids).result = .ok () →
      (prefillChunks fail cs s ids).state.prefillNumTokens =
        s.prefillNumTokens + 128 * (cs.length : Int) := by
  intro cs
  induction cs with
  | nil =>
      intro s ids h
      unfold prefillChunks at h ⊢
      by_cases hl : ids.length ≠ 0
      · rw [if_pos hl] at h
        exact absurd h (by simp)
      · rw [if_neg hl]
        simp
  | cons c cs ih =>
      intro s ids h
      cases hout : (prefillInternal fail s (ids.take c)).result with
      | error e =>
          rw [prefillChunks_cons_err fail c cs s ids e hout] at h
          exact absurd h (by simp)
      | ok u =>
          cases u
          rw [prefillChunks_cons_ok fail c cs s ids hout] at h ⊢
          simp only [] at h ⊢
          have hrest := ih (chunkAdvance fail s (ids.take c)) (ids.drop c) h
          rw [hrest]
          have hpres := (prefillInternal_preserves_counters fail s (ids.take c)).1
          simp only [chunkAdvance]
          rw [hpres]
          simp only [kPrefillSize, List.length_cons]
          push_cast
          ring

theorem getLastD_of_drop (ids : List Int) (c : Nat) (h : ids.drop c ≠ []) :
    (ids.drop c).getLastD 0 = ids.getLastD 0 := by
  conv_rhs => rw [← List.take_append_drop c ids]
  rw [getLastD_append _ _ h]

/-- Running the chunk loop over chunks that all hold at least two ids,
starting with a pending carry-over token, writes the carry and then all
ids but the last, advances current_step_ by the full id count, carries the
last id, and adds kPrefillSize per chunk to the token counter. -/
theorem prefillChunks_carry_spec (fail : Stage → Bool)
    (hok : firstFailingStage fail = none) :
    ∀ (cs : List Nat) (s : ExecState) (ids : List Int),
      cs ≠ [] → (∀ c ∈ cs, 2 ≤ c) → ids.length = cs.sum →
      s.nextInputTokenId ≠ -1 → (∀ x ∈ ids, x ≠ -1) →
      prefillChunks fail cs s ids =
        { state := { currentStep := s.currentStep + (ids.length : Int),
                     nextInputTokenId := ids.getLastD 0,
                     prefillNumTokens := s.prefillNumTokens + 128 * (cs.length : Int),
                     decodeNumTokens := s.decodeNumTokens },
          trace := zipSteps (s.nextInputTokenId :: ids.take (ids.length - 1))
            s.currentStep,
          result := .ok () } := by
  intro cs
  induction cs with
  | nil =>
      intro s ids hne
      exact absurd rfl hne
  | cons c cs ih =>
      intro s ids _ h2 hlen hnext hvalid
      have hc : 2 ≤ c := h2 c (List.mem_cons_self c cs)
      have hsum : ids.length = c + cs.sum := by simpa using hlen
      have hcle : c ≤ ids.length := by omega
      have htake_len : (ids.take c).length = c := by
        rw [List.length_take]
        omega
      have htake2 : 2 ≤ (ids.take c).length := by omega
      have hchunk := prefillInternal_carry fail s (ids.take c) hnext htake2 hok
      have hchunk_ok : (prefillInternal fail s (ids.take c)).result = .ok () := by
        rw [hchunk]
      rw [prefillChunks_cons_ok fail c cs s ids hchunk_ok]
      cases cs with
      | nil =>
          have hceq : ids.length = c := by simpa using hsum
          have htake_all : ids.take c = ids := List.take_of_length_le (by omega)
          have hdrop_nil : (ids.drop c).length = 0 := by simp; omega
          rw [prefillChunks_nil_ok fail _ _ hdrop_nil]
          simp only [chunkAdvance, hchunk]
          rw [htake_all]
          simp only [List.append_nil, ChunkOut.mk.injEq, ExecState.mk.injEq,
            kPrefillSize, List.length_cons, List.length_nil]
          norm_num
      | cons c2 cs2 =>
          have hc2 : 2 ≤ c2 := h2 c2 (List.mem_cons_of_mem c (List.mem_cons_self c2 cs2))
          have hsum2 : 2 ≤ (c2 :: cs2).sum := by
            simp only [List.sum_cons]
            omega
          have hdrop_len : (ids.drop c).length = (c2 :: cs2).sum := by
            simp only [List.length_drop]
            omega
          have hdrop_ne : ids.drop c ≠ [] := by
            intro hcontra
            rw [hcontra] at hdrop_len
            simp at hdrop_len
            omega
          have htake_ne : ids.take c ≠ [] := by
            intro hcontra
            rw [hcontra] at htake_len
            simp at htake_len
            omega
          have hnext1 : (ids.take c).getLastD 0 ≠ -1 :=
            hvalid _ (List.mem_of_mem_take (getLastD_mem _ htake_ne))
          have hvalid2 : ∀ x ∈ ids.drop c, x ≠ -1 := fun x hx =>
            hvalid x (List.mem_of_mem_drop hx)
          have hadv : chunkAdvance fail s (ids.take c) =
              { currentStep := s.currentStep + (c : Int),
                nextInputTokenId := (ids.take c).getLastD 0,
                prefillNumTokens := s.prefillNumTokens + (kPrefillSize : Int),
                decodeNumTokens := s.decodeNumTokens } := by
            simp only [chunkAdvance, hchunk, htake_len]
          have hrest := ih (chunkAdvance fail s (ids.take c)) (ids.drop c)
            (by simp) (fun x hx => h2 x (List.mem_cons_of_mem c hx)) hdrop_len
            (by rw [hadv]; exact hnext1) hvalid2
          rw [hrest, hadv, hchunk]
          simp only []
          congr 1
          · congr 1
            · simp only [List.length_drop]
              omega
            · exact getLastD_of_drop ids c hdrop_ne
            · simp only [kPrefillSize, List.length_cons]
              push_cast
              ring
          · have htt : List.take ((List.take c ids).length - 1) (List.take c ids) =
                List.take (c - 1) ids := by
              rw [htake_len, List.take_take]
              congr 1
              omega
            rw [htt]
            have hAlen : ((s.nextInputTokenId :: ids.take (c - 1)) : List Int).length = c := by
              simp only [List.length_cons, List.length_take]
              omega
            have hlist : (s.nextInputTokenId :: ids.take (ids.length - 1)) =
                (s.nextInputTokenId :: ids.take (c - 1)) ++
                  ((ids.take c).getLastD 0 :: (ids.drop c).take ((ids.drop c).length - 1)) := by
              simp only [List.cons_append]
              congr 1
              have hstep1 : ids.take (c - 1) ++ [(ids.take c).getLastD 0] = ids.take c :=
                (take_decomp ids c (by omega) hcle).symm
              have hstep2 : ids.take c ++ (ids.drop c).take ((ids.drop c).length - 1) =
                  ids.take (c + ((ids.drop c).length - 1)) := by
                rw [List.take_add]
              calc ids.take (ids.length - 1)
                  = ids.take (c + ((ids.drop c).length - 1)) := by
                    congr 1
                    simp only [List.length_drop]
                    omega
                _ = ids.take c ++ (ids.drop c).take ((ids.drop c).length - 1) :=
                    hstep2.symm
                _ = (ids.take (c - 1) ++ [(ids.take c).getLastD 0]) ++
                      (ids.drop c).take ((ids.drop c).length - 1) := by
                    rw [hstep1]
                _ = ids.take (c - 1) ++ ((ids.take c).getLastD 0 ::
                      (ids.drop c).take ((ids.drop c).length - 1)) := by
                    rw [List.append_assoc]
                    rfl
            rw [hlist]
            rw [zipSteps_append]
            rw [hAlen]

/-- Running the chunk loop with no pending carry-over token: the first
chunk defers its last id to the carry, the remaining chunks (each at least
two ids) continue from that carry; in total, all ids but the last are
written at consecutive positions, current_step_ advances by L-1, and the
last id ends in next_input_token_id_. -/
theorem prefillChunks_noCarry_spec (fail : Stage → Bool)
    (hok : firstFailingStage fail = none) (c : Nat) (cs : List Nat)
    (s : ExecState) (ids : List Int)
    (hc : 1 ≤ c) (h2 : ∀ x ∈ cs, 2 ≤ x) (hlen : ids.length = c + cs.sum)
    (hnext : s.nextInputTokenId = -1) (hvalid : ∀ x ∈ ids, x ≠ -1) :
    prefillChunks fail (c :: cs) s ids =
      { state := { currentStep := s.currentStep + ((ids.length - 1 : Nat) : Int),
                   nextInputTokenId := ids.getLastD 0,
                   prefillNumTokens := s.prefillNumTokens + 128 * ((c :: cs).length : Int),
                   decodeNumTokens := s.decodeNumTokens },
        trace := zipSteps (ids.take (ids.length - 1)) s.currentStep,
        result := .ok () } := by
  have hcle : c ≤ ids.length := by omega
  have htake_len : (ids.take c).length = c := by
    rw [List.length_take]
    omega
  have hchunk := prefillInternal_noCarry fail s (ids.take c) hnext hok
  have hchunk_ok : (prefillInternal fail s (ids.take c)).result = .ok () := by
    rw [hchunk]
  rw [prefillChunks_cons_ok fail c cs s ids hchunk_ok]
  cases cs with
  | nil =>
      have hceq : ids.length = c := by simpa using hlen
      have htake_all : ids.take c = ids := List.take_of_length_le (by omega)
      have hdrop_nil : (ids.drop c).length = 0 := by simp; omega
      rw [prefillChunks_nil_ok fail _ _ hdrop_nil]
      simp only [chunkAdvance, hchunk]
      rw [htake_all]
      simp only [List.append_nil, ChunkOut.mk.injEq, ExecState.mk.injEq,
        kPrefillSize, List.length_cons, List.length_nil]
      norm_num
  | cons c2 cs2 =>
      have hc2 : 2 ≤ c2 := h2 c2 (List.mem_cons_self c2 cs2)
      have hsum2 : 2 ≤ (c2 :: cs2).sum := by
        simp only [List.sum_cons]
        omega
      have hdrop_len : (ids.drop c).length = (c2 :: cs2).sum := by
        simp only [List.length_drop]
        omega
      have hdrop_ne : ids.drop c ≠ [] := by
        intro hcontra
        rw [hcontra] at hdrop_len
        simp at hdrop_len
        omega
      have htake_ne : ids.take c ≠ [] := by
        intro hcontra
        rw [hcontra] at htake_len
        simp at htake_len
        omega
      have hnext1 : (ids.take c).getLastD 0 ≠ -1 :=
        hvalid _ (List.mem_of_mem_take (getLastD_mem _ htake_ne))
      have hvalid2 : ∀ x ∈ ids.drop c, x ≠ -1 := fun x hx =>
        hvalid x (List.mem_of_mem_drop hx)
      have hadv : chunkAdvance fail s (ids.take c) =
          { currentStep := s.currentStep + (((ids.take c).length - 1 : Nat) : Int),
            nextInputTokenId := (ids.take c).getLastD 0,
            prefillNumTokens := s.prefillNumTokens + (kPrefillSize : Int),
            decodeNumTokens := s.decodeNumTokens } := by
        simp only [chunkAdvance, hchunk]
      have hrest := prefillChunks_carry_spec fail hok (c2 :: cs2)
        (chunkAdvance fail s (ids.take c)) (ids.drop c) (by simp) h2 hdrop_len
        (by rw [hadv]; exact hnext1) hvalid2
      rw [hrest, hadv, hchunk]
      dsimp only
      rw [htake_len]
      have htt : List.take (c - 1) (List.take c ids) = List.take (c - 1) ids := by
        rw [List.take_take]
        congr 1
        omega
      rw [htt]
      have hAlen : ((ids.take (c - 1)) : List Int).length = c - 1 := by
        simp only [List.length_take]
        omega
      have hlist : ids.take (ids.length - 1) =
          ids.take (c - 1) ++
            ((ids.take c).getLastD 0 :: (ids.drop c).take ((ids.drop c).length - 1)) := by
        have hstep1 : ids.take (c - 1) ++ [(ids.take c).getLastD 0] = ids.take c :=
          (take_decomp ids c (by omega) hcle).symm
        have hstep2 : ids.take c ++ (ids.drop c).take ((ids.drop c).length - 1) =
            ids.take (c + ((ids.drop c).length - 1)) := by
          rw [List.take_add]
        calc ids.take (ids.length - 1)
            = ids.take (c + ((ids.drop c).length - 1)) := by
              congr 1
              simp only [List.length_drop]
              omega
          _ = ids.take c ++ (ids.drop c).take ((ids.drop c).length - 1) :=
              hstep2.symm
          _ = (ids.take (c - 1) ++ [(ids.take c).getLastD 0]) ++
                (ids.drop c).take ((ids.drop c).length - 1) := by
              rw [hstep1]
          _ = ids.take (c - 1) ++ ((ids.take c).getLastD 0 ::
                (ids.drop c).take ((ids.drop c).length - 1)) := by
            rw [List.append_assoc]
            rfl
      rw [hlist]
      rw [zipSteps_append]
      rw [hAlen]
      simp only [ChunkOut.mk.injEq, ExecState.mk.injEq, kPrefillSize,
        List.length_cons, List.length_drop]
      and_intros <;>
        first
        | trivial
        | omega
        | exact getLastD_of_drop ids c hdrop_ne

/-- For a positive input length whose remainder modulo 128 is not 1 (or a
length of exactly 1), the greedy decomposition is a first chunk followed
by chunks of at least two ids each, covering the length exactly. -/
theorem workGroups_decomp (n : Nat) (h1 : 1 ≤ n) (h4 : n % 128 ≠ 1 ∨ n = 1) :
    ∃ c cs, workGroups n = c :: cs ∧ 1 ≤ c ∧ (∀ x ∈ cs, 2 ≤ x) ∧ n = c + cs.sum := by
  have hdm : 128 * (n / 128) + n % 128 = n := Nat.div_add_mod n 128
  unfold workGroups kPrefillSize
  by_cases hq : n / 128 = 0
  · have hr : n % 128 = n := by omega
    have hrne : ¬(n % 128 = 0) := by omega
    rw [hq, hr, if_neg (by omega)]
    exact ⟨n, [], rfl, h1, by simp, by simp⟩
  · have hq1 : 1 ≤ n / 128 := by omega
    have hrepl : List.replicate (n / 128) 128 =
        128 :: List.replicate (n / 128 - 1) 128 := by
      conv_lhs => rw [show n / 128 = (n / 128 - 1) + 1 by omega]
      rfl
    rw [hrepl]
    refine ⟨128, List.replicate (n / 128 - 1) 128 ++
      (if n % 128 = 0 then [] else [n % 128]), by simp, by omega, ?_, ?_⟩
    · intro x hx
      rcases List.mem_append.mp hx with hx | hx
      · rw [List.eq_of_mem_replicate hx]
        omega
      · by_cases hr0 : n % 128 = 0
        · rw [if_pos hr0] at hx
          cases hx
        · rw [if_neg hr0] at hx
          have hxr : x = n % 128 := by simpa using hx
          have hn128 : 128 ≤ n := by omega
          have hr1 : n % 128 ≠ 1 := by
            rcases h4 with h4 | h4
            · exact h4
            · omega
          have : 2 ≤ n % 128 := by omega
          omega
    · rw [List.sum_append, List.sum_replicate, smul_eq_mul]
      by_cases hr0 : n % 128 = 0
      · rw [if_pos hr0]
        simp
        omega
      · rw [if_neg hr0]
        simp
        omega

/-- The work-group decomposition of a positive length is never empty. -/
theorem workGroups_ne_nil (n : Nat) (h1 : 1 ≤ n) : workGroups n ≠ [] := by
  have hdm : 128 * (n / 128) + n % 128 = n := Nat.div_add_mod n 128
  unfold workGroups kPrefillSize
  by_cases hq : n / 128 = 0
  · rw [hq]
    have : ¬(n % 128 = 0) := by omega
    rw [if_neg this]
    simp
  · intro hcontra
    have := List.append_eq_nil.mp hcontra
    rw [List.replicate_eq_nil_iff] at this
    omega

/-- With a positive token count and batch 1, Prefill unfolds to the chunk
loop over the greedy work groups. -/
theorem prefillRun_eq_chunks (fail : Stage → Bool) (s : ExecState) (ids : List Int)
    (h1 : 1 ≤ ids.length) :
    prefillRun fail s 1 ids = prefillChunks fail (workGroups ids.length) s ids := by
  unfold prefillRun
  rw [if_neg (by omega), if_neg (by omega)]

/-- A successful Prefill on a nonempty input implies that no stage fails:
the very first chunk already runs all five stages. -/
theorem prefillRun_ok_stages (fail : Stage → Bool) (s : ExecState) (ids : List Int)
    (h1 : 1 ≤ ids.length) (h5 : (prefillRun fail s 1 ids).result = .ok ()) :
    firstFailingStage fail = none := by
  by_contra hcon
  rw [prefillRun_eq_chunks fail s ids h1] at h5
  cases hwg : workGroups ids.length with
  | nil => exact absurd hwg (workGroups_ne_nil ids.length h1)
  | cons c cs =>
      rw [hwg] at h5
      have herr : (prefillInternal fail s (ids.take c)).result = .error .internal := by
        unfold prefillInternal
        cases hst : firstFailingStage fail with
        | none => exact absurd hst hcon
        | some st => rfl
      rw [prefillChunks_cons_err fail c cs s ids _ herr] at h5
      exact absurd h5 (by simp)

/-- C1 (amended): a successful Prefill of a [1, N] tensor of valid token
ids with no pending carry-over, where the greedy decomposition has no
trailing length-1 chunk after other chunks (N mod 128 is not 1, or N is
exactly 1), writes exactly the first N-1 ids at consecutive positions,
advances current_step_ by exactly N-1, and leaves the last id in
next_input_token_id_ (hence it is not -1). -/
theorem prefill_writes_all_but_last (fail : Stage → Bool) (s : ExecState)
    (ids : List Int) (h1 : 1 ≤ ids.length) (h2 : s.nextInputTokenId = -1)
    (h3 : ∀ x ∈ ids, x ≠ -1) (h4 : ids.length % 128 ≠ 1 ∨ ids.length = 1)
    (h5 : (prefillRun fail s 1 ids).result = .ok ()) :
    prefillRun fail s 1 ids =
      { state := { currentStep := s.currentStep + ((ids.length - 1 : Nat) : Int),
                   nextInputTokenId := ids.getLastD 0,
                   prefillNumTokens := s.prefillNumTokens +
                     128 * ((workGroups ids.length).length : Int),
                   decodeNumTokens := s.decodeNumTokens },
        trace := zipSteps (ids.take (ids.length - 1)) s.currentStep,
        result := .ok () } := by
  have hok := prefillRun_ok_stages fail s ids h1 h5
  obtain ⟨c, cs, hwg, hc, hcs, hsum⟩ := workGroups_decomp ids.length h1 h4
  rw [prefillRun_eq_chunks fail s ids h1, hwg]
  rw [prefillChunks_noCarry_spec fail hok c cs s ids hc hcs hsum h2 h3]

/-- C1 amended witness: prefilling [5, 7, 9] from the fresh state writes
5 and 7 at positions 0 and 1, advances current_step_ to 2, and carries 9. -/
theorem prefill_writes_all_but_last_witness :
    prefillRun allStagesOk ⟨0, -1, 0, 0⟩ 1 [5, 7, 9] =
      { state := { currentStep := (⟨0, -1, 0, 0⟩ : ExecState).currentStep +
                     ((([5, 7, 9] : List Int).length - 1 : Nat) : Int),
                   nextInputTokenId := ([5, 7, 9] : List Int).getLastD 0,
                   prefillNumTokens := (⟨0, -1, 0, 0⟩ : ExecState).prefillNumTokens +
                     128 * ((workGroups ([5, 7, 9] : List Int).length).length : Int),
                   decodeNumTokens := (⟨0, -1, 0, 0⟩ : ExecState).decodeNumTokens },
        trace := zipSteps (([5, 7, 9] : List Int).take
          (([5, 7, 9] : List Int).length - 1)) (⟨0, -1, 0, 0⟩ : ExecState).currentStep,
        result := .ok () } :=
  prefill_writes_all_but_last allStagesOk ⟨0, -1, 0, 0⟩ [5, 7, 9]
    (by decide) (by decide) (by decide) (by decide) (by decide)

set_option maxRecDepth 4000 in
/-- C1 (counterexample to the claim as stated): the 129-token input
0, 1, ..., 128 prefills successfully from the fresh state (no pending
carry-over, all ids valid), yet current_step_ ends at 127, not at
N - 1 = 128: the greedy decomposition ends with a length-1 chunk whose
PrefillInternal loop runs zero iterations and overwrites the carried-over
token 127 without materializing it. -/
theorem prefill_length129_drops_carry :
    (prefillRun allStagesOk ⟨0, -1, 0, 0⟩ 1
        ((List.range 129).map Int.ofNat)).result = .ok () ∧
    (∀ x ∈ (List.range 129).map Int.ofNat, x ≠ -1) ∧
    (prefillRun allStagesOk ⟨0, -1, 0, 0⟩ 1
        ((List.range 129).map Int.ofNat)).state.currentStep = 127 ∧
    ¬((127 : Int) = (⟨0, -1, 0, 0⟩ : ExecState).currentStep +
        ((((List.range 129).map Int.ofNat).length - 1 : Nat) : Int)) := by
  refine ⟨by decide, by decide, by decide, by decide⟩

/-- C8: every successful Prefill adds exactly 128 to the
prefill_num_tokens counter per work-group chunk, regardless of the actual
chunk lengths: after a Prefill decomposed into W chunks the counter has
grown by 128 * W. -/
theorem prefill_num_tokens_adds_128_per_chunk (fail : Stage → Bool) (s : ExecState)
    (batch : Nat) (ids : List Int)
    (h : (prefillRun fail s batch ids).result = .ok ()) :
    (prefillRun fail s batch ids).state.prefillNumTokens =
      s.prefillNumTokens + 128 * ((workGroups ids.length).length : Int) := by
  unfold prefillRun at h ⊢
  by_cases hb : batch ≠ 1
  · rw [if_pos hb] at h
    exact absurd h (by simp)
  · rw [if_neg hb] at h ⊢
    by_cases hl : ids.length = 0
    · rw [if_pos hl] at h
      exact absurd h (by simp)
    · rw [if_neg hl] at h ⊢
      exact prefillChunks_counter fail _ s ids h

set_option maxRecDepth 4000 in
/-- C8 witness: the 129-token prefill decomposes into two work groups (128
and 1) and the counter grows by 256 = 128 * 2 even though only 129 tokens
were submitted. -/
theorem prefill_num_tokens_adds_128_per_chunk_witness :
    (prefillRun allStagesOk ⟨0, -1, 0, 0⟩ 1
        ((List.range 129).map Int.ofNat)).state.prefillNumTokens =
      (⟨0, -1, 0, 0⟩ : ExecState).prefillNumTokens +
        128 * ((workGroups ((List.range 129).map Int.ofNat).length).length : Int) :=
  prefill_num_tokens_adds_128_per_chunk allStagesOk ⟨0, -1, 0, 0⟩ 1
    ((List.range 129).map Int.ofNat) (by decide)

end LiteRTLM
